import Mathlib

/-!
Verification of the task-persistence core of the fullstack application
scaffold backend (`src/api`): the dual-backend tasks repository
(`repositories/tasks_repo.py`), the Pydantic field bounds
(`models/tasks.py`), the MongoDB connectivity layer (`db/mongodb.py`) and
the v1 health endpoint (`routers/v1.py`).

Modelling conventions of the shallow embedding:
* Task ids are `str(uuid.uuid4())` in the source: opaque strings drawn from
  a fresh-id generator.  They are modelled as natural numbers drawn from a
  counter `nextId`; freshness of the generator is the counter invariant
  `∀ d ∈ collection, d.id < nextId`.
* UTC timestamps (`datetime.now(tz=UTC)`) are modelled as natural clock
  ticks; each repository operation receives the tick at which it runs.
* The Python in-memory store keeps a `Dict[str, doc]`; a CPython dict
  preserves insertion order, assignment to an existing key keeps its
  position, and `del` removes the entry.  It is modelled as an
  insertion-ordered association list `List (Nat × Doc)`.
* The Mongo collection is modelled as a `List Doc` in natural (insertion)
  order.  `insert_one` appends; `find_one`, `update_one` (`$set`) and
  `delete_one` act on the first document matching the `_id` filter;
  `find().sort(created_at, -1).skip(o).limit(l)` is a stable descending
  sort by `created_at` followed by drop/take.
* A raised `HTTPException(404)` is the `Except.error RepoError.notFound`
  outcome; Pydantic validation failure is `ValidationError`.
-/

/-- Stored task document, the dict
`{_id, title, description, completed, created_at, updated_at}` built by
`InMemoryTasksStore.create` / `MongoTasksStore.create` in `tasks_repo.py`. -/
structure Doc where
  id : Nat
  title : String
  description : Option String
  completed : Bool
  created_at : Nat
  updated_at : Nat
deriving Repr, DecidableEq

/-- `TaskOut` of `models/tasks.py`: the task representation returned by the
API. -/
structure TaskOut where
  id : Nat
  title : String
  description : Option String
  completed : Bool
  created_at : Nat
  updated_at : Nat
deriving Repr, DecidableEq

/-- `_serialize_task` of `tasks_repo.py`.  Every stored doc carries all
fields, so `doc.get("description")` and `bool(doc.get("completed", False))`
are plain field reads. -/
def serialize_task (d : Doc) : TaskOut :=
  ⟨d.id, d.title, d.description, d.completed, d.created_at, d.updated_at⟩

/-- `TaskCreate` of `models/tasks.py` after validation: `title` is a
required string, `description` optional, `completed` defaulted. -/
structure TaskCreate where
  title : String
  description : Option String
  completed : Bool
deriving Repr, DecidableEq

/-- `TaskUpdate` of `models/tasks.py`: every field optional, `none` covers
both an absent field and an explicit JSON `null` (Pydantic parses both to
the default `None`). -/
structure TaskUpdate where
  title : Option String
  description : Option String
  completed : Option Bool
deriving Repr, DecidableEq

/-- Raw create payload before Pydantic validation: `completed` may be
absent (then defaulted to `False` by `Field(default=False)`). -/
structure RawCreate where
  title : String
  description : Option String
  completed : Option Bool
deriving Repr, DecidableEq

/-- Pydantic `ValidationError` raised at the request boundary. -/
inductive ValidationError where
  | fieldBound
deriving Repr, DecidableEq

/-- `HTTPException(404, "Task not found")` raised inside the stores. -/
inductive RepoError where
  | notFound
deriving Repr, DecidableEq

/-- Validation of a create payload against the `TaskCreate` field bounds of
`models/tasks.py`: `title` has `min_length=1, max_length=200`,
`description` has `max_length=4000` (checked only when present),
`completed` defaults to `False` when not supplied. -/
def validateCreate (r : RawCreate) : Except ValidationError TaskCreate :=
  if r.title.length < 1 then .error .fieldBound
  else if 200 < r.title.length then .error .fieldBound
  else match r.description with
    | some s =>
        if 4000 < s.length then .error .fieldBound
        else .ok ⟨r.title, some s, r.completed.getD false⟩
    | none => .ok ⟨r.title, none, r.completed.getD false⟩

/-- A title of exactly 200 characters, the upper boundary that must still
validate. -/
def title200 : String := String.mk (List.replicate 200 'a')

/-- Sample partial update supplying only a new title. -/
def patchTitleOnly : TaskUpdate := ⟨some "T2", none, none⟩

/-! ### Stable descending sort by `created_at`

`InMemoryTasksStore.list` runs `values.sort(key=lambda x: x["created_at"],
reverse=True)`: CPython's sort is stable, and `reverse=True` reverses the
key comparison without disturbing ties.  The Mongo cursor sort
`.sort("created_at", -1)` is modelled with the same stable descending
sort over the collection's natural order. -/

/-- Insert `a` into a descending-by-`created_at` list, before the first
element whose key is not larger: ties keep earlier (original) elements
first, which is exactly stability under `reverse=True`. -/
def insertDesc (a : Doc) : List Doc → List Doc
  | [] => [a]
  | b :: l => if b.created_at ≤ a.created_at then a :: b :: l else b :: insertDesc a l

/-- Stable sort of the stored docs by `created_at` descending. -/
def sortByCreatedAtDesc : List Doc → List Doc
  | [] => []
  | a :: l => insertDesc a (sortByCreatedAtDesc l)

/-! ### The in-memory store (`InMemoryTasksStore`)

The Python dict `self._items` is an insertion-ordered association list. -/

/-- Dict lookup `self._items[task_id]` / membership `task_id in self._items`
(first — and in a real dict only — entry with the key). -/
def dictGet (items : List (Nat × Doc)) (k : Nat) : Option Doc :=
  (items.find? (fun q => q.1 == k)).map Prod.snd

/-- Dict membership test `task_id in self._items`. -/
def dictMember (items : List (Nat × Doc)) (k : Nat) : Bool :=
  items.any (fun q => q.1 == k)

/-- Dict assignment `self._items[k] = v`: replaces the value at an existing
key in place, otherwise appends the new entry at the end. -/
def dictSet (items : List (Nat × Doc)) (k : Nat) (v : Doc) : List (Nat × Doc) :=
  match items with
  | [] => [(k, v)]
  | (k', v') :: t => if k' == k then (k', v) :: t else (k', v') :: dictSet t k v

/-- Dict deletion `del self._items[task_id]`: removes the entry with the
key. -/
def dictDelete (items : List (Nat × Doc)) (k : Nat) : List (Nat × Doc) :=
  items.eraseP (fun q => q.1 == k)

/-- `list(self._items.values())`: the values in insertion order. -/
def dictValues (items : List (Nat × Doc)) : List Doc :=
  items.map Prod.snd

/-- `InMemoryTasksStore`: minimal in-memory store used when MongoDB is not
configured. -/
structure InMemoryTasksStore where
  _items : List (Nat × Doc)
deriving Repr, DecidableEq

namespace InMemoryTasksStore

/-- `InMemoryTasksStore.list`: copy the values, stable-sort by
`created_at` descending, slice `values[offset : offset + limit]`,
serialize. -/
def list (st : InMemoryTasksStore) (limit offset : Nat) : List TaskOut :=
  (((sortByCreatedAtDesc (dictValues st._items)).drop offset).take limit).map serialize_task

/-- `InMemoryTasksStore.create`: build the doc with a fresh id and
`created_at = updated_at = now`, store it under its id, return it
serialized. -/
def create (st : InMemoryTasksStore) (task_id now : Nat) (p : TaskCreate) :
    InMemoryTasksStore × TaskOut :=
  let doc : Doc := ⟨task_id, p.title, p.description, p.completed, now, now⟩
  (⟨dictSet st._items task_id doc⟩, serialize_task doc)

/-- `InMemoryTasksStore.get`: 404 when the id is absent, otherwise the
serialized stored doc. -/
def get (st : InMemoryTasksStore) (task_id : Nat) : Except RepoError TaskOut :=
  match dictGet st._items task_id with
  | none => .error .notFound
  | some d => .ok (serialize_task d)

/-- The in-place field mutation of `InMemoryTasksStore.update`: each
supplied field overwrites the doc's field, then `updated_at` is
refreshed. -/
def memApplyUpdate (p : TaskUpdate) (now : Nat) (d : Doc) : Doc :=
  let d1 := match p.title with | some t => { d with title := t } | none => d
  let d2 := match p.description with | some s => { d1 with description := some s } | none => d1
  let d3 := match p.completed with | some c => { d2 with completed := c } | none => d2
  { d3 with updated_at := now }

/-- `InMemoryTasksStore.update`: 404 when the id is absent, otherwise
mutate only the supplied fields, refresh `updated_at`, store back and
return the serialized doc. -/
def update (st : InMemoryTasksStore) (task_id : Nat) (p : TaskUpdate) (now : Nat) :
    Except RepoError (InMemoryTasksStore × TaskOut) :=
  match dictGet st._items task_id with
  | none => .error .notFound
  | some d =>
      let d' := memApplyUpdate p now d
      .ok (⟨dictSet st._items task_id d'⟩, serialize_task d')

/-- `InMemoryTasksStore.delete`: 404 when the id is absent, otherwise
remove the entry. -/
def delete (st : InMemoryTasksStore) (task_id : Nat) : Except RepoError InMemoryTasksStore :=
  if dictMember st._items task_id then .ok ⟨dictDelete st._items task_id⟩
  else .error .notFound

end InMemoryTasksStore

/-! ### The Mongo-backed store (`MongoTasksStore`)

The collection is a list of docs in natural (insertion) order; the driver
operations act on the first document matching the `{_id: task_id}`
filter. -/

/-- Replace the first element satisfying `pred` by its image under `f`
(the effect of `update_one(filter, {$set: ...})`). -/
def setFirst (pred : Doc → Bool) (f : Doc → Doc) : List Doc → List Doc
  | [] => []
  | d :: l => if pred d then f d :: l else d :: setFirst pred f l

/-- The `$set` document built by `MongoTasksStore.update`: always
`updated_at`, plus each supplied field. -/
structure SetDoc where
  updated_at : Nat
  title : Option String
  description : Option String
  completed : Option Bool
deriving Repr, DecidableEq

/-- `MongoTasksStore.update`'s construction of the `$set` document. -/
def buildUpdateDoc (p : TaskUpdate) (now : Nat) : SetDoc :=
  ⟨now, p.title, p.description, p.completed⟩

/-- Application of a `$set` document to a stored doc: each present field
is overwritten, the others keep their value (`_id` is never in the
document). -/
def applySet (u : SetDoc) (d : Doc) : Doc :=
  { d with
    updated_at := u.updated_at
    title := u.title.getD d.title
    description := match u.description with | some s => some s | none => d.description
    completed := u.completed.getD d.completed }

/-- `MongoTasksStore`: Mongo-backed tasks store, the collection in natural
order. -/
structure MongoTasksStore where
  col : List Doc
deriving Repr, DecidableEq

namespace MongoTasksStore

/-- `MongoTasksStore.list`:
`find({}).sort("created_at", -1).skip(offset).limit(limit)`, then
serialization; `to_list(length=limit)` returns the at most `limit` docs
the cursor yields. -/
def list (st : MongoTasksStore) (limit offset : Nat) : List TaskOut :=
  (((sortByCreatedAtDesc st.col).drop offset).take limit).map serialize_task

/-- `MongoTasksStore.create`: build the doc with a fresh id and
`created_at = updated_at = now`, `insert_one` appends it, return it
serialized. -/
def create (st : MongoTasksStore) (task_id now : Nat) (p : TaskCreate) :
    MongoTasksStore × TaskOut :=
  let doc : Doc := ⟨task_id, p.title, p.description, p.completed, now, now⟩
  (⟨st.col ++ [doc]⟩, serialize_task doc)

/-- `MongoTasksStore.get`: `find_one({_id: task_id})`, 404 when no doc
matches. -/
def get (st : MongoTasksStore) (task_id : Nat) : Except RepoError TaskOut :=
  match st.col.find? (fun d => d.id == task_id) with
  | none => .error .notFound
  | some d => .ok (serialize_task d)

/-- `MongoTasksStore.update`: one atomic `update_one({_id}, {$set: ...})`;
`matched_count == 0` signals 404, otherwise the updated doc is re-read
with `find_one` and serialized (the source notes the re-read must succeed
because `matched_count > 0`; the `none` branch is proved unreachable
below). -/
def update (st : MongoTasksStore) (task_id : Nat) (p : TaskUpdate) (now : Nat) :
    Except RepoError (MongoTasksStore × TaskOut) :=
  let u := buildUpdateDoc p now
  if (st.col.find? (fun d => d.id == task_id)).isSome then
    let col' := setFirst (fun d => d.id == task_id) (applySet u) st.col
    match col'.find? (fun d => d.id == task_id) with
    | some d' => .ok (⟨col'⟩, serialize_task d')
    | none => .error .notFound
  else .error .notFound

/-- `MongoTasksStore.delete`: `delete_one({_id: task_id})`;
`deleted_count == 0` signals 404. -/
def delete (st : MongoTasksStore) (task_id : Nat) : Except RepoError MongoTasksStore :=
  if (st.col.find? (fun d => d.id == task_id)).isSome then
    .ok ⟨st.col.eraseP (fun d => d.id == task_id)⟩
  else .error .notFound

end MongoTasksStore

/-! ### MongoDB connectivity layer (`db/mongodb.py`) and health endpoint
(`routers/v1.py`) -/

/-- Outcome of the driver command `self._db.command("ping")`: success, or
one of the failure modes the `except Exception` clause must absorb. -/
inductive PingOutcome where
  | success
  | connError
  | timeoutExpired
  | driverExc
deriving Repr, DecidableEq

/-- The raw driver call `self._db.command("ping")`: raises (as an `Except`
error) on every outcome but success. -/
def commandPing (o : PingOutcome) : Except PingOutcome Unit :=
  match o with
  | .success => .ok ()
  | e => .error e

/-- `MongoClientManager`: holds the optional client and database handle
for the lifetime of the process.  The handles are opaque here. -/
structure MongoClientManager where
  _client : Option Unit
  _db : Option Unit
deriving Repr, DecidableEq

/-- The `MONGODB_SERVER_SELECTION_TIMEOUT_MS` environment value as seen by
`configure_from_env`: unset (so `os.getenv` yields the default `"500"`),
a string parsing (via `int`) to the integer `v`, or a malformed string on
which `int` raises `ValueError`. -/
inductive TimeoutEnv where
  | unset
  | intVal (v : Int)
  | malformed
deriving Repr, DecidableEq

/-- `os.getenv("MONGODB_SERVER_SELECTION_TIMEOUT_MS", "500")` followed by
`int(...)`: the default string `"500"` parses to `500`; a malformed value
raises `ValueError`. -/
def getenvTimeoutMs (e : TimeoutEnv) : Except Unit Int :=
  match e with
  | .unset => .ok 500
  | .intVal v => .ok v
  | .malformed => .error ()

/-- The effective server-selection timeout computed in
`configure_from_env`: `max(50, int(raw))`, with `ValueError` mapped to
`500`. -/
def configuredTimeoutMs (e : TimeoutEnv) : Int :=
  match getenvTimeoutMs e with
  | .ok v => max 50 v
  | .error _ => 500

/-- `MongoClientManager.configure_from_env`: with no `MONGODB_URI` the
client and db stay unset; otherwise a lazy client and db handle are
constructed (no I/O yet). -/
def configure_from_env (uri : Option String) : MongoClientManager :=
  match uri with
  | none => ⟨none, none⟩
  | some _ => ⟨some (), some ()⟩

/-- `MongoClientManager.ping`: `False` without touching the driver when no
db is configured, otherwise the driver ping with every exception caught
and converted to `False`.  The second component records whether the
driver was invoked (I/O performed). -/
def MongoClientManager.ping (m : MongoClientManager) (o : PingOutcome) : Bool × Bool :=
  match m._db with
  | none => (false, false)
  | some _ =>
      match commandPing o with
      | .ok _ => (true, true)
      | .error _ => (false, true)

/-- `MongoClientManager.close` / `MongoClientManager.disable`: drop client
and db handle. -/
def MongoClientManager.close (_m : MongoClientManager) : MongoClientManager :=
  ⟨none, none⟩

/-- `init_mongo`: configure from the environment, probe once, and on a
failed probe disable Mongo for the process lifetime.  `startupOutcome` is
the outcome the startup probe would observe. -/
def init_mongo (uri : Option String) (startupOutcome : PingOutcome) : MongoClientManager :=
  let m := configure_from_env uri
  if (m.ping startupOutcome).1 then m else m.close

/-- `HealthOut` of `routers/v1.py`. -/
structure HealthOut where
  status : String
  mongodb_configured : Bool
  mongodb_ok : Bool
deriving Repr, DecidableEq

/-- `health_v1`: `configured` is `get_mongo_db() is not None`; when
configured, `ok` is a fresh `mongo_manager.ping()` with the outcome
`probeOutcome`; otherwise `ok` stays `False`. -/
def health_v1 (m : MongoClientManager) (probeOutcome : PingOutcome) : HealthOut :=
  let configured := m._db.isSome
  let ok := if configured then (m.ping probeOutcome).1 else false
  ⟨"ok", configured, ok⟩

/-! ### Operation sequences over both backends

`get_tasks_store` hands every request either the in-memory store or a
Mongo-backed store; the backends are exercised through the identical
interface.  A run threads the fresh-id counter and the clock identically
through a sequence of repository operations and records each observable
result. -/

/-- One repository operation (create payloads already validated at the
boundary, identically for both backends). -/
inductive Op where
  | createOp (p : TaskCreate)
  | getOp (task_id : Nat)
  | updateOp (task_id : Nat) (p : TaskUpdate)
  | deleteOp (task_id : Nat)
  | listOp (limit offset : Nat)
deriving Repr, DecidableEq

/-- Observable result of one repository operation: a task, a page of
tasks, the delete acknowledgement, or a 404. -/
inductive Output where
  | task (t : TaskOut)
  | tasks (ts : List TaskOut)
  | deleted
  | notFound
deriving Repr, DecidableEq

/-- Run a sequence of operations against the in-memory store, threading
the fresh-id counter and the clock. -/
def runMem (st : InMemoryTasksStore) (nextId clock : Nat) : List Op → List Output
  | [] => []
  | op :: ops =>
    match op with
    | .createOp p =>
        let r := st.create nextId clock p
        .task r.2 :: runMem r.1 (nextId + 1) (clock + 1) ops
    | .getOp tid =>
        (match st.get tid with
         | .ok t => .task t
         | .error _ => .notFound) :: runMem st nextId (clock + 1) ops
    | .updateOp tid p =>
        match st.update tid p clock with
        | .ok r => .task r.2 :: runMem r.1 nextId (clock + 1) ops
        | .error _ => .notFound :: runMem st nextId (clock + 1) ops
    | .deleteOp tid =>
        match st.delete tid with
        | .ok st' => .deleted :: runMem st' nextId (clock + 1) ops
        | .error _ => .notFound :: runMem st nextId (clock + 1) ops
    | .listOp limit offset =>
        .tasks (st.list limit offset) :: runMem st nextId (clock + 1) ops

/-- Run a sequence of operations against the Mongo-backed store, threading
the fresh-id counter and the clock. -/
def runMongo (st : MongoTasksStore) (nextId clock : Nat) : List Op → List Output
  | [] => []
  | op :: ops =>
    match op with
    | .createOp p =>
        let r := st.create nextId clock p
        .task r.2 :: runMongo r.1 (nextId + 1) (clock + 1) ops
    | .getOp tid =>
        (match st.get tid with
         | .ok t => .task t
         | .error _ => .notFound) :: runMongo st nextId (clock + 1) ops
    | .updateOp tid p =>
        match st.update tid p clock with
        | .ok r => .task r.2 :: runMongo r.1 nextId (clock + 1) ops
        | .error _ => .notFound :: runMongo st nextId (clock + 1) ops
    | .deleteOp tid =>
        match st.delete tid with
        | .ok st' => .deleted :: runMongo st' nextId (clock + 1) ops
        | .error _ => .notFound :: runMongo st nextId (clock + 1) ops
    | .listOp limit offset =>
        .tasks (st.list limit offset) :: runMongo st nextId (clock + 1) ops

/-- The association list a Mongo collection presents as a Python dict:
each doc keyed by its id, in the same order. -/
def toKV (col : List Doc) : List (Nat × Doc) :=
  col.map (fun d => (d.id, d))

/-! ### Concrete fixtures used to evaluate the definitions on sample data -/

/-- Sample stored doc: id 0, created at tick 5. -/
def docA : Doc := ⟨0, "Test task", some "Hello", false, 5, 5⟩

/-- Sample stored doc: id 1, created at the same tick 5 (a `created_at`
tie with `docA`) and updated at tick 6. -/
def docB : Doc := ⟨1, "Second task", none, true, 5, 6⟩

/-- Sample in-memory store holding `docA` and `docB` in insertion order. -/
def sampleMem : InMemoryTasksStore := ⟨[(0, docA), (1, docB)]⟩

/-- Sample Mongo collection holding `docA` and `docB` in natural order. -/
def sampleMongo : MongoTasksStore := ⟨[docA, docB]⟩

/-- Sample partial update: set `completed`, leave `title` and
`description` untouched. -/
def samplePatch : TaskUpdate := ⟨none, none, some true⟩

/-! ### Lemmas about the stable descending sort -/

theorem mem_insertDesc {x a : Doc} {l : List Doc} :
    x ∈ insertDesc a l ↔ x = a ∨ x ∈ l := by
  induction l with
  | nil => simp [insertDesc]
  | cons b t ih =>
      by_cases h : b.created_at ≤ a.created_at
      · simp [insertDesc, h]
      · simp [insertDesc, h, ih]
        tauto

theorem insertDesc_perm (a : Doc) (l : List Doc) :
    (insertDesc a l).Perm (a :: l) := by
  induction l with
  | nil => simp [insertDesc]
  | cons b t ih =>
      by_cases h : b.created_at ≤ a.created_at
      · simp [insertDesc, h]
      · rw [insertDesc, if_neg h]
        exact (ih.cons b).trans (List.Perm.swap a b t)

theorem sortByCreatedAtDesc_perm (l : List Doc) :
    (sortByCreatedAtDesc l).Perm l := by
  induction l with
  | nil => simp [sortByCreatedAtDesc]
  | cons a t ih =>
      rw [sortByCreatedAtDesc]
      exact (insertDesc_perm a _).trans (ih.cons a)

theorem insertDesc_pairwise {a : Doc} {l : List Doc}
    (h : l.Pairwise (fun x y => y.created_at ≤ x.created_at)) :
    (insertDesc a l).Pairwise (fun x y => y.created_at ≤ x.created_at) := by
  induction l with
  | nil => simp [insertDesc]
  | cons b t ih =>
      rcases List.pairwise_cons.mp h with ⟨hb, ht⟩
      by_cases hba : b.created_at ≤ a.created_at
      · rw [insertDesc, if_pos hba]
        refine List.pairwise_cons.mpr ⟨?_, h⟩
        intro y hy
        rcases List.mem_cons.mp hy with rfl | hyt
        · exact hba
        · exact le_trans (hb y hyt) hba
      · rw [insertDesc, if_neg hba]
        refine List.pairwise_cons.mpr ⟨?_, ih ht⟩
        intro y hy
        rcases mem_insertDesc.mp hy with rfl | hyt
        · exact le_of_not_le hba
        · exact hb y hyt

theorem sortByCreatedAtDesc_pairwise (l : List Doc) :
    (sortByCreatedAtDesc l).Pairwise (fun x y => y.created_at ≤ x.created_at) := by
  induction l with
  | nil => simp [sortByCreatedAtDesc]
  | cons a t ih => exact insertDesc_pairwise ih

theorem filter_insertDesc (a : Doc) (l : List Doc) (t : Nat) :
    (insertDesc a l).filter (fun d => d.created_at == t) =
      if a.created_at = t then a :: l.filter (fun d => d.created_at == t)
      else l.filter (fun d => d.created_at == t) := by
  induction l with
  | nil =>
      by_cases h : a.created_at = t <;>
        simp [insertDesc, List.filter_cons, h]
  | cons b r ih =>
      rw [insertDesc]
      by_cases hba : b.created_at ≤ a.created_at
      · rw [if_pos hba]
        by_cases ha : a.created_at = t <;>
          simp [List.filter_cons, ha]
      · rw [if_neg hba]
        have hgt : a.created_at < b.created_at := lt_of_not_le hba
        by_cases ha : a.created_at = t
        · have hb : ¬ b.created_at = t := by omega
          simp [List.filter_cons, ha, hb, ih]
        · by_cases hb : b.created_at = t <;>
            simp [List.filter_cons, ha, hb, ih]

theorem filter_sortByCreatedAtDesc (l : List Doc) (t : Nat) :
    (sortByCreatedAtDesc l).filter (fun d => d.created_at == t) =
      l.filter (fun d => d.created_at == t) := by
  induction l with
  | nil => rfl
  | cons a r ih =>
      rw [sortByCreatedAtDesc, filter_insertDesc]
      by_cases ha : a.created_at = t <;>
        simp [List.filter_cons, ha, ih]

/-! ### Correspondence between the dict view and the Mongo collection -/

theorem dictValues_toKV (col : List Doc) : dictValues (toKV col) = col := by
  induction col with
  | nil => rfl
  | cons d r ih =>
      show d :: dictValues (toKV r) = d :: r
      rw [ih]

theorem dictGet_toKV (col : List Doc) (k : Nat) :
    dictGet (toKV col) k = col.find? (fun d => d.id == k) := by
  induction col with
  | nil => rfl
  | cons d r ih =>
      by_cases h : d.id = k
      · have hb : (d.id == k) = true := by simpa using h
        simp [dictGet, toKV, List.find?, hb]
      · have hb : (d.id == k) = false := by simpa using h
        simpa [dictGet, toKV, List.find?, hb] using ih

theorem dictMember_toKV (col : List Doc) (k : Nat) :
    dictMember (toKV col) k = (col.find? (fun d => d.id == k)).isSome := by
  induction col with
  | nil => rfl
  | cons d r ih =>
      by_cases h : d.id = k
      · have hb : (d.id == k) = true := by simpa using h
        simp [dictMember, toKV, List.find?, hb]
      · have hb : (d.id == k) = false := by simpa using h
        simpa [dictMember, toKV, List.find?, hb] using ih

theorem dictSet_fresh (items : List (Nat × Doc)) (k : Nat) (v : Doc)
    (h : ∀ q ∈ items, q.1 ≠ k) :
    dictSet items k v = items ++ [(k, v)] := by
  induction items with
  | nil => rfl
  | cons q r ih =>
      have hq : (q.1 == k) = false := by
        simpa using h q (List.mem_cons_self q r)
      rw [dictSet]
      simp only [hq, Bool.false_eq_true, if_neg, not_false_iff]
      rw [ih (fun p hp => h p (List.mem_cons_of_mem q hp))]
      rfl

theorem dictSet_toKV_setFirst (col : List Doc) (k : Nat) (f : Doc → Doc)
    (hf : ∀ d, (f d).id = d.id) :
    ∀ d, col.find? (fun x => x.id == k) = some d →
      dictSet (toKV col) k (f d) = toKV (setFirst (fun x => x.id == k) f col) := by
  induction col with
  | nil => intro d h; simp [List.find?] at h
  | cons c r ih =>
      intro d h
      by_cases hc : c.id = k
      · have hb : (c.id == k) = true := by simpa using hc
        have hd : d = c := by
          simp [List.find?, hb] at h
          exact h.symm
        subst hd
        simp [toKV, dictSet, setFirst, hb, hf d, hc]
      · have hb : (c.id == k) = false := by simpa using hc
        have hr : r.find? (fun x => x.id == k) = some d := by
          simpa [List.find?, hb] using h
        simp only [toKV, List.map_cons, dictSet, setFirst, hb, Bool.false_eq_true,
          if_neg, not_false_iff]
        rw [show (List.map (fun d => (d.id, d)) r) = toKV r from rfl, ih d hr]
        rfl

theorem find?_setFirst (col : List Doc) (k : Nat) (f : Doc → Doc)
    (hf : ∀ d, (f d).id = d.id) :
    ∀ d, col.find? (fun x => x.id == k) = some d →
      (setFirst (fun x => x.id == k) f col).find? (fun x => x.id == k) = some (f d) := by
  induction col with
  | nil => intro d h; simp [List.find?] at h
  | cons c r ih =>
      intro d h
      by_cases hc : c.id = k
      · have hb : (c.id == k) = true := by simpa using hc
        have hd : d = c := by
          simp [List.find?, hb] at h
          exact h.symm
        subst hd
        have hb' : ((f d).id == k) = true := by simp [hf d, hc]
        simp [setFirst, hb, List.find?, hb']
      · have hb : (c.id == k) = false := by simpa using hc
        have hr : r.find? (fun x => x.id == k) = some d := by
          simpa [List.find?, hb] using h
        simp [setFirst, hb, List.find?, ih d hr]

theorem eraseP_toKV (col : List Doc) (k : Nat) :
    (toKV col).eraseP (fun q => q.1 == k) =
      toKV (col.eraseP (fun d => d.id == k)) := by
  induction col with
  | nil => rfl
  | cons c r ih =>
      by_cases hc : c.id = k
      · have hb : (c.id == k) = true := by simpa using hc
        simp [toKV, List.eraseP_cons, hb]
      · have hb : (c.id == k) = false := by simpa using hc
        simp only [toKV, List.map_cons, List.eraseP_cons, hb, Bool.false_eq_true,
          if_neg, not_false_iff]
        rw [show (List.map (fun d => (d.id, d)) r) = toKV r from rfl, ih]
        rfl

theorem ids_setFirst (col : List Doc) (pred : Doc → Bool) (f : Doc → Doc)
    (hf : ∀ d, (f d).id = d.id) :
    (setFirst pred f col).map Doc.id = col.map Doc.id := by
  induction col with
  | nil => rfl
  | cons c r ih =>
      by_cases hc : pred c = true <;>
        simp [setFirst, hc, hf, ih]

theorem applySet_id (u : SetDoc) (d : Doc) : (applySet u d).id = d.id := rfl

theorem memApplyUpdate_eq_applySet (p : TaskUpdate) (now : Nat) (d : Doc) :
    InMemoryTasksStore.memApplyUpdate p now d = applySet (buildUpdateDoc p now) d := by
  rcases p with ⟨pt, pd, pc⟩
  cases pt <;> cases pd <;> cases pc <;> rfl

theorem memList_toKV (col : List Doc) (limit offset : Nat) :
    InMemoryTasksStore.list ⟨toKV col⟩ limit offset =
      MongoTasksStore.list ⟨col⟩ limit offset := by
  simp [InMemoryTasksStore.list, MongoTasksStore.list, dictValues_toKV]

theorem memGet_toKV (col : List Doc) (tid : Nat) :
    InMemoryTasksStore.get ⟨toKV col⟩ tid = MongoTasksStore.get ⟨col⟩ tid := by
  simp [InMemoryTasksStore.get, MongoTasksStore.get, dictGet_toKV]

theorem memCreate_toKV (col : List Doc) (nextId now : Nat) (p : TaskCreate)
    (hinv : ∀ d ∈ col, d.id < nextId) :
    InMemoryTasksStore.create ⟨toKV col⟩ nextId now p =
      (⟨toKV (col ++ [⟨nextId, p.title, p.description, p.completed, now, now⟩])⟩,
       serialize_task ⟨nextId, p.title, p.description, p.completed, now, now⟩) := by
  have hfresh : ∀ q ∈ toKV col, q.1 ≠ nextId := by
    intro q hq
    rcases List.mem_map.mp hq with ⟨d, hd, rfl⟩
    exact Nat.ne_of_lt (hinv d hd)
  simp only [InMemoryTasksStore.create]
  rw [dictSet_fresh _ _ _ hfresh]
  have : toKV (col ++ [(⟨nextId, p.title, p.description, p.completed, now, now⟩ : Doc)]) =
      toKV col ++ [(nextId, ⟨nextId, p.title, p.description, p.completed, now, now⟩)] := by
    simp [toKV]
  rw [this]

theorem memUpdate_toKV (col : List Doc) (tid : Nat) (p : TaskUpdate) (now : Nat) :
    InMemoryTasksStore.update ⟨toKV col⟩ tid p now =
      Except.map (fun r => (⟨toKV r.1.col⟩, r.2)) (MongoTasksStore.update ⟨col⟩ tid p now) := by
  cases hfind : col.find? (fun d => d.id == tid) with
  | none =>
      simp [InMemoryTasksStore.update, MongoTasksStore.update, dictGet_toKV, hfind,
        Except.map]
  | some d =>
      have hset := dictSet_toKV_setFirst col tid (applySet (buildUpdateDoc p now))
        (fun d => applySet_id _ d) d hfind
      have hfind' := find?_setFirst col tid (applySet (buildUpdateDoc p now))
        (fun d => applySet_id _ d) d hfind
      simp [InMemoryTasksStore.update, MongoTasksStore.update, dictGet_toKV, hfind,
        hfind', Except.map, memApplyUpdate_eq_applySet, hset]

theorem memDelete_toKV (col : List Doc) (tid : Nat) :
    InMemoryTasksStore.delete ⟨toKV col⟩ tid =
      Except.map (fun r => ⟨toKV r.col⟩) (MongoTasksStore.delete ⟨col⟩ tid) := by
  cases hfind : (col.find? (fun d => d.id == tid)).isSome with
  | false =>
      simp [InMemoryTasksStore.delete, MongoTasksStore.delete, dictMember_toKV, hfind,
        Except.map]
  | true =>
      simp [InMemoryTasksStore.delete, MongoTasksStore.delete, dictMember_toKV, hfind,
        Except.map, dictDelete, eraseP_toKV]

theorem inv_append (col : List Doc) (nextId : Nat) (doc : Doc)
    (hinv : ∀ d ∈ col, d.id < nextId) (hdoc : doc.id = nextId) :
    ∀ d ∈ col ++ [doc], d.id < nextId + 1 := by
  intro d hd
  rcases List.mem_append.mp hd with h | h
  · exact Nat.lt_succ_of_lt (hinv d h)
  · rcases List.mem_singleton.mp h with rfl
    omega

theorem inv_setFirst (col : List Doc) (nextId : Nat) (pred : Doc → Bool) (f : Doc → Doc)
    (hf : ∀ d, (f d).id = d.id) (hinv : ∀ d ∈ col, d.id < nextId) :
    ∀ d ∈ setFirst pred f col, d.id < nextId := by
  intro d hd
  have : d.id ∈ (setFirst pred f col).map Doc.id := List.mem_map_of_mem Doc.id hd
  rw [ids_setFirst col pred f hf] at this
  rcases List.mem_map.mp this with ⟨c, hc, hcd⟩
  rw [← hcd]
  exact hinv c hc

theorem inv_eraseP (col : List Doc) (nextId : Nat) (pred : Doc → Bool)
    (hinv : ∀ d ∈ col, d.id < nextId) :
    ∀ d ∈ col.eraseP pred, d.id < nextId :=
  fun d hd => hinv d ((List.eraseP_sublist col).mem hd)

theorem runMem_toKV_runMongo (ops : List Op) :
    ∀ (col : List Doc) (nextId clock : Nat),
      (∀ d ∈ col, d.id < nextId) →
      runMem ⟨toKV col⟩ nextId clock ops = runMongo ⟨col⟩ nextId clock ops := by
  induction ops with
  | nil => intro col nextId clock _; rfl
  | cons op ops ih =>
      intro col nextId clock hinv
      cases op with
      | createOp p =>
          simp only [runMem, runMongo, memCreate_toKV col nextId clock p hinv,
            MongoTasksStore.create]
          exact congrArg _ (ih _ _ _ (inv_append col nextId _ hinv rfl))
      | getOp tid =>
          simp only [runMem, runMongo, memGet_toKV]
          exact congrArg _ (ih _ _ _ hinv)
      | updateOp tid p =>
          simp only [runMem, runMongo, memUpdate_toKV col tid p clock]
          cases hup : MongoTasksStore.update ⟨col⟩ tid p clock with
          | error e =>
              simp only [Except.map]
              exact congrArg _ (ih _ _ _ hinv)
          | ok r =>
              obtain ⟨⟨col'⟩, out⟩ := r
              have hcol' : col' = setFirst (fun d => d.id == tid)
                  (applySet (buildUpdateDoc p clock)) col := by
                simp only [MongoTasksStore.update] at hup
                by_cases hs : (col.find? (fun d => d.id == tid)).isSome
                · simp only [hs, if_pos] at hup
                  cases hf : (setFirst (fun x => x.id == tid)
                      (applySet (buildUpdateDoc p clock)) col).find?
                      (fun x => x.id == tid) with
                  | none => rw [hf] at hup; exact absurd hup (by simp)
                  | some d' => rw [hf] at hup; cases hup; rfl
                · simp only [hs] at hup
                  exact absurd hup (by simp)
              subst hcol'
              simp only [Except.map]
              exact congrArg _
                (ih _ _ _ (inv_setFirst col nextId _ _ (fun d => applySet_id _ d) hinv))
      | deleteOp tid =>
          simp only [runMem, runMongo, memDelete_toKV col tid]
          cases hdel : MongoTasksStore.delete ⟨col⟩ tid with
          | error e =>
              simp only [Except.map]
              exact congrArg _ (ih _ _ _ hinv)
          | ok r =>
              obtain ⟨col'⟩ := r
              have hcol' : col' = col.eraseP (fun d => d.id == tid) := by
                simp only [MongoTasksStore.delete] at hdel
                by_cases hs : (col.find? (fun d => d.id == tid)).isSome
                · simp only [hs, if_pos] at hdel
                  cases hdel; rfl
                · simp only [hs] at hdel
                  exact absurd hdel (by simp)
              subst hcol'
              simp only [Except.map]
              exact congrArg _ (ih _ _ _ (inv_eraseP col nextId _ hinv))
      | listOp limit offset =>
          simp only [runMem, runMongo, memList_toKV]
          exact congrArg _ (ih _ _ _ hinv)

/-- C1: for every sequence of repository operations (create/get/update/
delete/list) applied identically to both backends — same payloads, the
same fresh-id generator and the same clock — the in-memory fallback store
and the Mongo-backed store produce observably equivalent results: the
same returned tasks, the same list order, and `NotFound` in exactly the
same cases.  In particular any two backends seeded with the same
insertion sequence answer `list(limit, offset)` identically, since the
seeding creates are part of the operation sequence. -/
theorem backends_observationally_equivalent (ops : List Op) (nextId clock : Nat) :
    runMem ⟨[]⟩ nextId clock ops = runMongo ⟨[]⟩ nextId clock ops :=
  runMem_toKV_runMongo ops [] nextId clock (by intro d hd; simp at hd)

/-- C3: for every store state and every `limit` in `1..200` and
`offset ≥ 0`, `list(limit, offset)` returns the stored tasks stable-sorted
by `created_at` descending (ties keep insertion order: the elements at any
fixed `created_at` tick `t` appear exactly as in insertion order), sliced
to at most `limit` items starting at `offset`; when `offset` is at least
the collection size the result is empty — and `list` is a total function,
never an error.  Both backends are covered. -/
theorem list_sorted_stable_paginated
    (st : InMemoryTasksStore) (ms : MongoTasksStore) (limit offset t : Nat)
    (hlo : 1 ≤ limit) (hhi : limit ≤ 200) :
    st.list limit offset =
        (((sortByCreatedAtDesc (dictValues st._items)).drop offset).take limit).map
          serialize_task
    ∧ (sortByCreatedAtDesc (dictValues st._items)).Pairwise
        (fun x y => y.created_at ≤ x.created_at)
    ∧ (sortByCreatedAtDesc (dictValues st._items)).Perm (dictValues st._items)
    ∧ (sortByCreatedAtDesc (dictValues st._items)).filter (fun d => d.created_at == t) =
        (dictValues st._items).filter (fun d => d.created_at == t)
    ∧ (st.list limit offset).length ≤ limit
    ∧ (st._items.length ≤ offset → st.list limit offset = [])
    ∧ ms.list limit offset =
        (((sortByCreatedAtDesc ms.col).drop offset).take limit).map serialize_task
    ∧ (sortByCreatedAtDesc ms.col).Pairwise (fun x y => y.created_at ≤ x.created_at)
    ∧ (sortByCreatedAtDesc ms.col).Perm ms.col
    ∧ (sortByCreatedAtDesc ms.col).filter (fun d => d.created_at == t) =
        ms.col.filter (fun d => d.created_at == t)
    ∧ (ms.list limit offset).length ≤ limit
    ∧ (ms.col.length ≤ offset → ms.list limit offset = []) := by
  refine ⟨rfl, sortByCreatedAtDesc_pairwise _, sortByCreatedAtDesc_perm _,
    filter_sortByCreatedAtDesc _ t, ?_, ?_, rfl, sortByCreatedAtDesc_pairwise _,
    sortByCreatedAtDesc_perm _, filter_sortByCreatedAtDesc _ t, ?_, ?_⟩
  · simp [InMemoryTasksStore.list]
  · intro h
    have hlen : (sortByCreatedAtDesc (dictValues st._items)).length ≤ offset := by
      rw [(sortByCreatedAtDesc_perm _).length_eq]
      simpa [dictValues] using h
    simp [InMemoryTasksStore.list, List.drop_eq_nil_of_le hlen]
  · simp [MongoTasksStore.list]
  · intro h
    have hlen : (sortByCreatedAtDesc ms.col).length ≤ offset := by
      rw [(sortByCreatedAtDesc_perm _).length_eq]
      exact h
    simp [MongoTasksStore.list, List.drop_eq_nil_of_le hlen]

/-- Witness for C3 at a concrete input: two stored docs with tied
`created_at`, `limit = 50`, `offset = 0`, tick `t = 5`; the page respects
the limit and the tie keeps insertion order. -/
theorem list_sorted_stable_paginated_witness :
    (1 ≤ 50 ∧ 50 ≤ 200)
    ∧ (sampleMem.list 50 0).length ≤ 50
    ∧ (sortByCreatedAtDesc (dictValues sampleMem._items)).filter
        (fun d => d.created_at == 5) =
      (dictValues sampleMem._items).filter (fun d => d.created_at == 5) :=
  ⟨⟨by decide, by decide⟩,
   (list_sorted_stable_paginated sampleMem sampleMongo 50 0 5 (by decide)
      (by decide)).2.2.2.2.1,
   (list_sorted_stable_paginated sampleMem sampleMongo 50 0 5 (by decide)
      (by decide)).2.2.2.1⟩

/-! ### Pointwise behavior of the update path -/

theorem dictGet_dictSet_self (items : List (Nat × Doc)) (k : Nat) (v : Doc) :
    dictGet (dictSet items k v) k = some v := by
  induction items with
  | nil => simp [dictSet, dictGet, List.find?]
  | cons q r ih =>
      by_cases h : q.1 = k
      · have hb : (q.1 == k) = true := by simpa using h
        simp [dictSet, dictGet, List.find?, hb]
      · have hb : (q.1 == k) = false := by simpa using h
        simpa [dictSet, dictGet, List.find?, hb] using ih

theorem dictGet_dictSet_ne (items : List (Nat × Doc)) (k k' : Nat) (v : Doc)
    (hne : k' ≠ k) :
    dictGet (dictSet items k v) k' = dictGet items k' := by
  induction items with
  | nil =>
      have hb : (k == k') = false := by simpa using (Ne.symm hne)
      simp [dictSet, dictGet, List.find?, hb]
  | cons q r ih =>
      by_cases h : q.1 = k
      · have hb : (q.1 == k) = true := by simpa using h
        have hb' : (q.1 == k') = false := by
          simp [h]
          exact Ne.symm hne
        simp [dictSet, dictGet, List.find?, hb, hb']
      · have hb : (q.1 == k) = false := by simpa using h
        by_cases h' : q.1 = k'
        · have hb' : (q.1 == k') = true := by simpa using h'
          simp [dictSet, dictGet, List.find?, hb, hb']
        · have hb' : (q.1 == k') = false := by simpa using h'
          simpa [dictSet, dictGet, List.find?, hb, hb'] using ih

theorem find?_setFirst_ne (col : List Doc) (tid k : Nat) (f : Doc → Doc)
    (hf : ∀ d, (f d).id = d.id) (hne : k ≠ tid) :
    (setFirst (fun x => x.id == tid) f col).find? (fun x => x.id == k) =
      col.find? (fun x => x.id == k) := by
  induction col with
  | nil => rfl
  | cons c r ih =>
      by_cases hc : c.id = tid
      · have hb : (c.id == tid) = true := by simpa using hc
        have hck : (c.id == k) = false := by
          simp [hc]
          exact Ne.symm hne
        have hfk : ((f c).id == k) = false := by
          simp [hf c, hc]
          exact Ne.symm hne
        simp [setFirst, hb, List.find?, hck, hfk]
      · have hb : (c.id == tid) = false := by simpa using hc
        by_cases h' : c.id = k
        · have hb' : (c.id == k) = true := by simpa using h'
          simp [setFirst, hb, List.find?, hb']
        · have hb' : (c.id == k) = false := by simpa using h'
          simpa [setFirst, hb, List.find?, hb'] using ih

/-- C4: for every existing task and every partial update payload,
`update(id, fields)` changes exactly the supplied fields: `id` and
`created_at` are never changed, each unsupplied field keeps its prior
value, each supplied field takes the supplied value, `updated_at` is
refreshed to the update's timestamp, the subsequent `get(id)` returns
exactly the updated task, and every other id is untouched.  Both backends
are covered (`d` is the stored doc in the in-memory store, `dm` the one
in the Mongo collection, `k` any other id). -/
theorem update_changes_exactly_supplied
    (st : InMemoryTasksStore) (ms : MongoTasksStore)
    (tid : Nat) (p : TaskUpdate) (now : Nat) (d dm : Doc) (k : Nat)
    (hmem : dictGet st._items tid = some d)
    (hmongo : ms.col.find? (fun x => x.id == tid) = some dm)
    (hk : k ≠ tid) :
    (st.update tid p now).map (fun r => r.2.id) = .ok d.id
    ∧ (st.update tid p now).map (fun r => r.2.created_at) = .ok d.created_at
    ∧ (st.update tid p now).map (fun r => r.2.updated_at) = .ok now
    ∧ (st.update tid p now).map (fun r => r.2.title) = .ok (p.title.getD d.title)
    ∧ (st.update tid p now).map (fun r => r.2.description) =
        .ok (match p.description with | some s => some s | none => d.description)
    ∧ (st.update tid p now).map (fun r => r.2.completed) = .ok (p.completed.getD d.completed)
    ∧ (st.update tid p now).map (fun r => r.1.get tid) =
        (st.update tid p now).map (fun r => Except.ok r.2)
    ∧ (st.update tid p now).map (fun r => dictGet r.1._items k) = .ok (dictGet st._items k)
    ∧ (ms.update tid p now).map (fun r => r.2.id) = .ok dm.id
    ∧ (ms.update tid p now).map (fun r => r.2.created_at) = .ok dm.created_at
    ∧ (ms.update tid p now).map (fun r => r.2.updated_at) = .ok now
    ∧ (ms.update tid p now).map (fun r => r.2.title) = .ok (p.title.getD dm.title)
    ∧ (ms.update tid p now).map (fun r => r.2.description) =
        .ok (match p.description with | some s => some s | none => dm.description)
    ∧ (ms.update tid p now).map (fun r => r.2.completed) = .ok (p.completed.getD dm.completed)
    ∧ (ms.update tid p now).map (fun r => r.1.get tid) =
        (ms.update tid p now).map (fun r => Except.ok r.2)
    ∧ (ms.update tid p now).map (fun r => r.1.col.find? (fun x => x.id == k)) =
        .ok (ms.col.find? (fun x => x.id == k)) := by
  have hmemupd : st.update tid p now =
      .ok (⟨dictSet st._items tid (InMemoryTasksStore.memApplyUpdate p now d)⟩,
        serialize_task (InMemoryTasksStore.memApplyUpdate p now d)) := by
    simp [InMemoryTasksStore.update, hmem]
  have hfind' := find?_setFirst ms.col tid (applySet (buildUpdateDoc p now))
    (fun x => applySet_id _ x) dm hmongo
  have hmongoupd : ms.update tid p now =
      .ok (⟨setFirst (fun x => x.id == tid) (applySet (buildUpdateDoc p now)) ms.col⟩,
        serialize_task (applySet (buildUpdateDoc p now) dm)) := by
    simp [MongoTasksStore.update, hmongo, hfind']
  refine ⟨?_, ?_, ?_, ?_, ?_, ?_, ?_, ?_, ?_, ?_, ?_, ?_, ?_, ?_, ?_, ?_⟩
  · rw [hmemupd]
    simp [Except.map, serialize_task, memApplyUpdate_eq_applySet, applySet, buildUpdateDoc]
  · rw [hmemupd]
    simp [Except.map, serialize_task, memApplyUpdate_eq_applySet, applySet, buildUpdateDoc]
  · rw [hmemupd]
    simp [Except.map, serialize_task, memApplyUpdate_eq_applySet, applySet, buildUpdateDoc]
  · rw [hmemupd]
    simp [Except.map, serialize_task, memApplyUpdate_eq_applySet, applySet, buildUpdateDoc]
  · rw [hmemupd]
    cases hd : p.description <;>
      simp [Except.map, serialize_task, memApplyUpdate_eq_applySet, applySet,
        buildUpdateDoc, hd]
  · rw [hmemupd]
    simp [Except.map, serialize_task, memApplyUpdate_eq_applySet, applySet, buildUpdateDoc]
  · rw [hmemupd]
    simp [Except.map, InMemoryTasksStore.get, dictGet_dictSet_self]
  · rw [hmemupd]
    simp [Except.map, dictGet_dictSet_ne st._items tid k _ hk]
  · rw [hmongoupd]
    simp [Except.map, serialize_task, applySet, buildUpdateDoc]
  · rw [hmongoupd]
    simp [Except.map, serialize_task, applySet, buildUpdateDoc]
  · rw [hmongoupd]
    simp [Except.map, serialize_task, applySet, buildUpdateDoc]
  · rw [hmongoupd]
    simp [Except.map, serialize_task, applySet, buildUpdateDoc]
  · rw [hmongoupd]
    cases hd : p.description <;>
      simp [Except.map, serialize_task, applySet, buildUpdateDoc, hd]
  · rw [hmongoupd]
    simp [Except.map, serialize_task, applySet, buildUpdateDoc]
  · rw [hmongoupd]
    simp [Except.map, MongoTasksStore.get, hfind']
  · rw [hmongoupd]
    simp [Except.map,
      find?_setFirst_ne ms.col tid k (applySet (buildUpdateDoc p now))
        (fun x => applySet_id _ x) hk]

/-- Witness for C4 at a concrete input: patch `{completed: true}` on the
stored doc with id 1 at tick 9; `updated_at` is refreshed, `title` and
`completed` behave as claimed, and the follow-up `get` returns the
updated task, on both backends. -/
theorem update_changes_exactly_supplied_witness :
    dictGet sampleMem._items 1 = some docB
    ∧ (0 : Nat) ≠ 1
    ∧ (sampleMem.update 1 samplePatch 9).map (fun r => r.2.updated_at) = .ok 9
    ∧ (sampleMem.update 1 samplePatch 9).map (fun r => r.2.title) =
        .ok (samplePatch.title.getD docB.title)
    ∧ (sampleMem.update 1 samplePatch 9).map (fun r => r.2.completed) =
        .ok (samplePatch.completed.getD docB.completed)
    ∧ (sampleMem.update 1 samplePatch 9).map (fun r => r.1.get 1) =
        (sampleMem.update 1 samplePatch 9).map (fun r => Except.ok r.2)
    ∧ (sampleMongo.update 1 samplePatch 9).map (fun r => r.2.updated_at) = .ok 9 :=
  have h := update_changes_exactly_supplied sampleMem sampleMongo 1 samplePatch 9
    docB docB 0 (by decide) (by decide) (by decide)
  ⟨by decide, by decide, h.2.2.1, h.2.2.2.1, h.2.2.2.2.2.1, h.2.2.2.2.2.2.1,
    h.2.2.2.2.2.2.2.2.2.2.1⟩

theorem find?_append_none {p : Doc → Bool} {l1 : List Doc} (l2 : List Doc)
    (h : l1.find? p = none) : (l1 ++ l2).find? p = l2.find? p := by
  induction l1 with
  | nil => rfl
  | cons c r ih =>
      cases hc : p c with
      | true => simp [List.find?, hc] at h
      | false =>
          have hr : r.find? p = none := by simpa [List.find?, hc] using h
          simpa [List.find?, hc] using ih hr

/-- C6: for every valid create payload, `create` returns a task whose
`created_at` equals its `updated_at` (both the creation tick), whose id
is the freshly generated one and distinct from every id previously
present in the backend's collection (freshness of the generator is the
counter invariant), which the follow-up `get` returns unchanged, and
whose `completed` is the supplied value — defaulting to `false` when the
raw payload did not supply it.  Both backends are covered. -/
theorem create_fresh_id_equal_timestamps
    (st : InMemoryTasksStore) (ms : MongoTasksStore) (nextId now : Nat) (p : TaskCreate)
    (r : RawCreate) (tc : TaskCreate)
    (hmemk : ∀ q ∈ st._items, q.1 < nextId)
    (hmongo : ∀ d ∈ ms.col, d.id < nextId)
    (hraw : r.completed = none)
    (hval : validateCreate r = .ok tc) :
    ((st.create nextId now p).2).created_at = ((st.create nextId now p).2).updated_at
    ∧ ((st.create nextId now p).2).created_at = now
    ∧ ((st.create nextId now p).2).id = nextId
    ∧ dictMember st._items nextId = false
    ∧ ((st.create nextId now p).2).completed = p.completed
    ∧ ((st.create nextId now p).1).get nextId = .ok ((st.create nextId now p).2)
    ∧ ((ms.create nextId now p).2).created_at = ((ms.create nextId now p).2).updated_at
    ∧ ((ms.create nextId now p).2).created_at = now
    ∧ ((ms.create nextId now p).2).id = nextId
    ∧ ms.col.find? (fun x => x.id == nextId) = none
    ∧ ((ms.create nextId now p).2).completed = p.completed
    ∧ ((ms.create nextId now p).1).get nextId = .ok ((ms.create nextId now p).2)
    ∧ tc.completed = false := by
  have hfreshm : dictMember st._items nextId = false := by
    simp only [dictMember, List.any_eq_false]
    intro q hq
    simpa using Nat.ne_of_lt (hmemk q hq)
  have hfreshc : ms.col.find? (fun x => x.id == nextId) = none := by
    rw [List.find?_eq_none]
    intro d hd
    simpa using Nat.ne_of_lt (hmongo d hd)
  have hdefault : tc.completed = false := by
    rcases r with ⟨rt, rd, rc⟩
    cases rc with
    | some b => simp at hraw
    | none =>
        simp only [validateCreate] at hval
        by_cases h1 : rt.length < 1
        · simp [h1] at hval
        · by_cases h2 : 200 < rt.length
          · simp [h1, h2] at hval
          · cases rd with
            | none =>
                simp [h1, h2] at hval
                rw [← hval]
            | some s =>
                by_cases h3 : 4000 < s.length
                · simp [h1, h2, h3] at hval
                · simp [h1, h2, h3] at hval
                  rw [← hval]
  refine ⟨rfl, rfl, rfl, hfreshm, rfl, ?_, rfl, rfl, rfl, hfreshc, rfl, ?_, hdefault⟩
  · simp [InMemoryTasksStore.create, InMemoryTasksStore.get, dictGet_dictSet_self]
  · simp [MongoTasksStore.create, MongoTasksStore.get, find?_append_none _ hfreshc,
      List.find?]

/-- Witness for C6 at a concrete input: create `{title: "New", completed
defaulted}` over the sample stores with `nextId = 2` at tick 7; the raw
payload without `completed` validates to `completed = false`. -/
theorem create_fresh_id_equal_timestamps_witness :
    (∀ q ∈ sampleMem._items, q.1 < 2)
    ∧ validateCreate ⟨"New", none, none⟩ = .ok ⟨"New", none, false⟩
    ∧ ((sampleMem.create 2 7 ⟨"New", none, false⟩).2).created_at =
        ((sampleMem.create 2 7 ⟨"New", none, false⟩).2).updated_at
    ∧ dictMember sampleMem._items 2 = false
    ∧ sampleMongo.col.find? (fun x => x.id == 2) = none
    ∧ (⟨"New", none, false⟩ : TaskCreate).completed = false :=
  have h := create_fresh_id_equal_timestamps sampleMem sampleMongo 2 7
    ⟨"New", none, false⟩ ⟨"New", none, none⟩ ⟨"New", none, false⟩
    (by decide) (by decide) (by decide) (by rfl)
  ⟨by decide, by rfl, h.1, h.2.2.2.1, h.2.2.2.2.2.2.2.2.2.1, h.2.2.2.2.2.2.2.2.2.2.2.2⟩

theorem dictGet_eq_none (items : List (Nat × Doc)) (k : Nat)
    (h : ∀ q ∈ items, q.1 ≠ k) : dictGet items k = none := by
  have : items.find? (fun q => q.1 == k) = none := by
    rw [List.find?_eq_none]
    intro q hq
    simpa using h q hq
  simp [dictGet, this]

theorem dictMember_eq_isSome (items : List (Nat × Doc)) (k : Nat) :
    dictMember items k = (dictGet items k).isSome := by
  induction items with
  | nil => rfl
  | cons q r ih =>
      cases hq : (q.1 == k) with
      | true => simp [dictMember, dictGet, List.find?, hq]
      | false => simpa [dictMember, dictGet, List.find?, hq] using ih

theorem dictGet_eraseP_self (items : List (Nat × Doc)) (tid : Nat)
    (h : (items.map Prod.fst).Nodup) :
    dictGet (items.eraseP (fun q => q.1 == tid)) tid = none := by
  induction items with
  | nil => rfl
  | cons q r ih =>
      rw [List.map_cons] at h
      rcases List.nodup_cons.mp h with ⟨hq, hr⟩
      by_cases hqt : q.1 = tid
      · have hb : (q.1 == tid) = true := by simpa using hqt
        simp only [List.eraseP_cons, hb, cond_true]
        apply dictGet_eq_none
        intro q' hq'
        intro hc
        apply hq
        have hmem : q'.1 ∈ List.map Prod.fst r := List.mem_map_of_mem Prod.fst hq'
        rwa [hc, ← hqt] at hmem
      · have hb : (q.1 == tid) = false := by simpa using hqt
        simp only [List.eraseP_cons, hb, cond_false]
        simpa [dictGet, List.find?, hb] using ih hr

theorem dictGet_eraseP_ne (items : List (Nat × Doc)) (tid k : Nat) (hk : k ≠ tid) :
    dictGet (items.eraseP (fun q => q.1 == tid)) k = dictGet items k := by
  induction items with
  | nil => rfl
  | cons q r ih =>
      by_cases hqt : q.1 = tid
      · have hb : (q.1 == tid) = true := by simpa using hqt
        have hb' : (q.1 == k) = false := by
          simp [hqt]
          exact fun hc => hk hc.symm
        rw [List.eraseP_cons, hb]
        simp [dictGet, List.find?, hb']
      · have hb : (q.1 == tid) = false := by simpa using hqt
        rw [List.eraseP_cons, hb]
        cases hq : (q.1 == k) with
        | true => simp [dictGet, List.find?, hq]
        | false => simpa [dictGet, List.find?, hq] using ih

theorem docFind_eq_none (col : List Doc) (k : Nat)
    (h : ∀ d ∈ col, d.id ≠ k) : col.find? (fun x => x.id == k) = none := by
  rw [List.find?_eq_none]
  intro d hd
  simpa using h d hd

theorem find?_eraseP_self (col : List Doc) (tid : Nat)
    (h : (col.map Doc.id).Nodup) :
    (col.eraseP (fun x => x.id == tid)).find? (fun x => x.id == tid) = none := by
  induction col with
  | nil => rfl
  | cons c r ih =>
      rw [List.map_cons] at h
      rcases List.nodup_cons.mp h with ⟨hc, hr⟩
      by_cases hct : c.id = tid
      · have hb : (c.id == tid) = true := by simpa using hct
        simp only [List.eraseP_cons, hb, cond_true]
        apply docFind_eq_none
        intro d hd
        intro hdc
        apply hc
        have hmem : d.id ∈ List.map Doc.id r := List.mem_map_of_mem Doc.id hd
        rwa [hdc, ← hct] at hmem
      · have hb : (c.id == tid) = false := by simpa using hct
        simp only [List.eraseP_cons, hb, cond_false]
        simpa [List.find?, hb] using ih hr

theorem find?_eraseP_ne (col : List Doc) (tid k : Nat) (hk : k ≠ tid) :
    (col.eraseP (fun x => x.id == tid)).find? (fun x => x.id == k) =
      col.find? (fun x => x.id == k) := by
  induction col with
  | nil => rfl
  | cons c r ih =>
      by_cases hct : c.id = tid
      · have hb : (c.id == tid) = true := by simpa using hct
        have hb' : (c.id == k) = false := by
          simp [hct]
          exact fun hc => hk hc.symm
        rw [List.eraseP_cons, hb]
        simp [List.find?, hb']
      · have hb : (c.id == tid) = false := by simpa using hct
        rw [List.eraseP_cons, hb]
        cases hq : (c.id == k) with
        | true => simp [List.find?, hq]
        | false => simpa [List.find?, hq] using ih

theorem length_eraseP_kv (items : List (Nat × Doc)) (tid : Nat)
    (h : dictMember items tid = true) :
    (items.eraseP (fun q => q.1 == tid)).length + 1 = items.length := by
  induction items with
  | nil => simp [dictMember] at h
  | cons q r ih =>
      cases hq : (q.1 == tid) with
      | true => simp [List.eraseP_cons, hq]
      | false =>
          have hr : dictMember r tid = true := by
            simpa [dictMember, hq] using h
          simpa [List.eraseP_cons, hq] using ih hr

theorem length_eraseP_doc (col : List Doc) (tid : Nat)
    (h : (col.find? (fun x => x.id == tid)).isSome = true) :
    (col.eraseP (fun x => x.id == tid)).length + 1 = col.length := by
  induction col with
  | nil => simp [List.find?] at h
  | cons c r ih =>
      cases hc : (c.id == tid) with
      | true => simp [List.eraseP_cons, hc]
      | false =>
          have hr : (r.find? (fun x => x.id == tid)).isSome = true := by
            simpa [List.find?, hc] using h
          simpa [List.eraseP_cons, hc] using ih hr

/-- C7: after a successful `delete(id)` the id is permanently removed: a
subsequent `get(id)` yields `NotFound`, a second `delete(id)` yields
`NotFound`, every other id is untouched, and exactly one entry left the
collection.  Stated through `Except.map`, so when the first delete itself
fails with `NotFound` every equation holds trivially; on a successful
delete it asserts the claimed facts.  Both backends are covered; the
`Nodup` hypotheses are the key/id uniqueness every reachable store state
has (dict keys are unique, Mongo enforces `_id` uniqueness). -/
theorem delete_then_absent
    (st : InMemoryTasksStore) (ms : MongoTasksStore) (tid k : Nat)
    (hnk : (st._items.map Prod.fst).Nodup)
    (hnm : (ms.col.map Doc.id).Nodup)
    (hk : k ≠ tid) :
    (st.delete tid).map (fun st' => st'.get tid) =
        (st.delete tid).map (fun _ => Except.error RepoError.notFound)
    ∧ (st.delete tid).map (fun st' => st'.delete tid) =
        (st.delete tid).map (fun _ => Except.error RepoError.notFound)
    ∧ (st.delete tid).map (fun st' => dictGet st'._items k) =
        (st.delete tid).map (fun _ => dictGet st._items k)
    ∧ (st.delete tid).map (fun st' => st'._items.length + 1) =
        (st.delete tid).map (fun _ => st._items.length)
    ∧ (ms.delete tid).map (fun ms' => ms'.get tid) =
        (ms.delete tid).map (fun _ => Except.error RepoError.notFound)
    ∧ (ms.delete tid).map (fun ms' => ms'.delete tid) =
        (ms.delete tid).map (fun _ => Except.error RepoError.notFound)
    ∧ (ms.delete tid).map (fun ms' => ms'.col.find? (fun x => x.id == k)) =
        (ms.delete tid).map (fun _ => ms.col.find? (fun x => x.id == k))
    ∧ (ms.delete tid).map (fun ms' => ms'.col.length + 1) =
        (ms.delete tid).map (fun _ => ms.col.length) := by
  refine ⟨?_, ?_, ?_, ?_, ?_, ?_, ?_, ?_⟩
  case refine_1 =>
    cases hmem : dictMember st._items tid with
    | false => simp [InMemoryTasksStore.delete, hmem, Except.map]
    | true =>
        simp only [InMemoryTasksStore.delete, hmem, if_pos, Except.map, dictDelete]
        simp [InMemoryTasksStore.get, dictGet_eraseP_self st._items tid hnk]
  case refine_2 =>
    cases hmem : dictMember st._items tid with
    | false => simp [InMemoryTasksStore.delete, hmem, Except.map]
    | true =>
        simp only [InMemoryTasksStore.delete, hmem, if_pos, Except.map, dictDelete]
        simp [InMemoryTasksStore.delete, dictMember_eq_isSome,
          dictGet_eraseP_self st._items tid hnk]
  case refine_3 =>
    cases hmem : dictMember st._items tid with
    | false => simp [InMemoryTasksStore.delete, hmem, Except.map]
    | true =>
        simp only [InMemoryTasksStore.delete, hmem, if_pos, Except.map, dictDelete]
        simp [dictGet_eraseP_ne st._items tid k hk]
  case refine_4 =>
    cases hmem : dictMember st._items tid with
    | false => simp [InMemoryTasksStore.delete, hmem, Except.map]
    | true =>
        simp only [InMemoryTasksStore.delete, hmem, if_pos, Except.map, dictDelete]
        simp [length_eraseP_kv st._items tid hmem]
  case refine_5 =>
    cases hmo : (ms.col.find? (fun x => x.id == tid)).isSome with
    | false => simp [MongoTasksStore.delete, hmo, Except.map]
    | true =>
        simp only [MongoTasksStore.delete, hmo, if_pos, Except.map]
        simp [MongoTasksStore.get, find?_eraseP_self ms.col tid hnm]
  case refine_6 =>
    cases hmo : (ms.col.find? (fun x => x.id == tid)).isSome with
    | false => simp [MongoTasksStore.delete, hmo, Except.map]
    | true =>
        simp only [MongoTasksStore.delete, hmo, if_pos, Except.map]
        simp [MongoTasksStore.delete, find?_eraseP_self ms.col tid hnm]
  case refine_7 =>
    cases hmo : (ms.col.find? (fun x => x.id == tid)).isSome with
    | false => simp [MongoTasksStore.delete, hmo, Except.map]
    | true =>
        simp only [MongoTasksStore.delete, hmo, if_pos, Except.map]
        simp [find?_eraseP_ne ms.col tid k hk]
  case refine_8 =>
    cases hmo : (ms.col.find? (fun x => x.id == tid)).isSome with
    | false => simp [MongoTasksStore.delete, hmo, Except.map]
    | true =>
        simp only [MongoTasksStore.delete, hmo, if_pos, Except.map]
        simp [length_eraseP_doc ms.col tid hmo]

/-- Witness for C7 at a concrete input: delete id 0 from the sample
stores; the follow-up `get 0` and second `delete 0` are `NotFound` and
exactly one entry is gone. -/
theorem delete_then_absent_witness :
    ((0 : Nat) :: [1]).Nodup
    ∧ (1 : Nat) ≠ 0
    ∧ (sampleMem.delete 0).map (fun st' => st'.get 0) =
        (sampleMem.delete 0).map (fun _ => Except.error RepoError.notFound)
    ∧ (sampleMem.delete 0).map (fun st' => st'.delete 0) =
        (sampleMem.delete 0).map (fun _ => Except.error RepoError.notFound)
    ∧ (sampleMem.delete 0).map (fun st' => st'._items.length + 1) =
        (sampleMem.delete 0).map (fun _ => sampleMem._items.length)
    ∧ (sampleMongo.delete 0).map (fun ms' => ms'.get 0) =
        (sampleMongo.delete 0).map (fun _ => Except.error RepoError.notFound) :=
  have h := delete_then_absent sampleMem sampleMongo 0 1 (by decide) (by decide)
    (by decide)
  ⟨by decide, by decide, h.1, h.2.1, h.2.2.2.1, h.2.2.2.2.1⟩

theorem title200_length : title200.length = 200 := rfl

/-- C8: `create` rejects with `ValidationError` exactly when a field
violates its declared bound — title empty or longer than 200 characters,
or description longer than 4000 characters; in particular a title of
exactly 200 characters (with a description of at most 4000 characters)
validates, while 0, 201 and 4001 fall outside the bounds. -/
theorem create_validation_exact_bounds (t : String) (d : Option String) (c : Option Bool) :
    (validateCreate ⟨t, d, c⟩).toOption.isSome = true ↔
      (1 ≤ t.length ∧ t.length ≤ 200 ∧ (d.getD "").length ≤ 4000) := by
  by_cases h1 : t.length < 1
  · simp [validateCreate, h1, Except.toOption]
    try omega
  · by_cases h2 : 200 < t.length
    · simp [validateCreate, h1, h2, Except.toOption]
      try omega
    · cases d with
      | none =>
          simp [validateCreate, h1, h2, Except.toOption, Option.getD]
          try omega
      | some str =>
          by_cases h3 : 4000 < str.length
          · simp [validateCreate, h1, h2, h3, Except.toOption, Option.getD]
            try omega
          · simp [validateCreate, h1, h2, h3, Except.toOption, Option.getD]
            try omega

/-- Witness for C8: a 200-character title validates; an empty title does
not. -/
theorem create_validation_exact_bounds_witness :
    (validateCreate ⟨title200, none, none⟩).toOption.isSome = true
    ∧ (validateCreate ⟨"", none, none⟩).toOption.isSome = false :=
  ⟨(create_validation_exact_bounds title200 none none).mpr
      (by refine ⟨?_, ?_, ?_⟩ <;> simp [title200_length]),
   by rfl⟩

/-- C5: the connectivity probe never raises past its boundary: whatever
the outcome of the driver command (success, connection error, timeout, or
any other driver exception), `ping` returns a plain boolean — `true`
exactly on success of a configured database — and when no database is
configured it returns `false` without invoking the driver at all (the
second component records whether driver I/O happened). -/
theorem ping_never_raises (m : MongoClientManager) (o : PingOutcome) :
    (m.ping o).1 = (m._db.isSome && (o == PingOutcome.success))
    ∧ (m._db = none → m.ping o = (false, false)) := by
  cases hdb : m._db with
  | none => cases o <;> simp [MongoClientManager.ping, hdb, commandPing]
  | some u =>
      refine ⟨?_, by intro h; exact absurd h (by simp)⟩
      cases o <;> simp [MongoClientManager.ping, hdb, commandPing]

/-- Witness for C5: an unconfigured manager with a timed-out driver
outcome returns `false` with no I/O. -/
theorem ping_never_raises_witness :
    ((configure_from_env none).ping PingOutcome.timeoutExpired).1 =
      ((configure_from_env none)._db.isSome && (PingOutcome.timeoutExpired == PingOutcome.success))
    ∧ (configure_from_env none)._db = none
    ∧ (configure_from_env none).ping PingOutcome.timeoutExpired = (false, false) :=
  have h := ping_never_raises (configure_from_env none) PingOutcome.timeoutExpired
  ⟨h.1, rfl, h.2 rfl⟩

/-- C9: the effective server-selection timeout is the configured integer
millisecond value clamped below at 50 — `max(50, v)`, so zero or negative
configurations become 50 — and 500 when the variable is unset (and also
500 when it does not parse as an integer); every effective value is at
least 50. -/
theorem server_selection_timeout_clamped (v w : Int) (e : TimeoutEnv) (hw : w ≤ 0) :
    configuredTimeoutMs (TimeoutEnv.intVal v) = max 50 v
    ∧ configuredTimeoutMs TimeoutEnv.unset = 500
    ∧ configuredTimeoutMs (TimeoutEnv.intVal w) = 50
    ∧ configuredTimeoutMs TimeoutEnv.malformed = 500
    ∧ 50 ≤ configuredTimeoutMs e := by
  refine ⟨rfl, rfl, ?_, rfl, ?_⟩
  · simp [configuredTimeoutMs, getenvTimeoutMs]
    omega
  · cases e <;> simp [configuredTimeoutMs, getenvTimeoutMs] <;> omega

/-- Witness for C9: configured value 75 stays 75, configured value −3 is
clamped to 50, and a malformed value keeps the default 500. -/
theorem server_selection_timeout_clamped_witness :
    ((-3 : Int) ≤ 0)
    ∧ configuredTimeoutMs (TimeoutEnv.intVal 75) = max 50 75
    ∧ configuredTimeoutMs TimeoutEnv.unset = 500
    ∧ configuredTimeoutMs (TimeoutEnv.intVal (-3)) = 50
    ∧ 50 ≤ configuredTimeoutMs TimeoutEnv.malformed :=
  have h := server_selection_timeout_clamped 75 (-3) TimeoutEnv.malformed (by decide)
  ⟨by decide, h.1, h.2.1, h.2.2.1, h.2.2.2.2⟩

/-- C10 (implicit): an update whose `description` field is absent or null
leaves the stored description unchanged, and no update payload can reset
a non-null description back to null: the merged description is null iff
both the payload's and the stored description were null.  In the embedded
`TaskUpdate`, `none` covers both an absent field and an explicit JSON
`null`, because Pydantic parses both to the default `None` and both
backends guard each field with `is not None`.  Both backends are
covered. -/
theorem update_description_absorbing_null
    (st : InMemoryTasksStore) (ms : MongoTasksStore) (tid : Nat)
    (p q : TaskUpdate) (now : Nat) (d dm : Doc)
    (hmem : dictGet st._items tid = some d)
    (hmongo : ms.col.find? (fun x => x.id == tid) = some dm)
    (hp : p.description = none) :
    (st.update tid p now).map (fun r => r.2.description) = .ok d.description
    ∧ (ms.update tid p now).map (fun r => r.2.description) = .ok dm.description
    ∧ ((InMemoryTasksStore.memApplyUpdate q now d).description = none ↔
        (q.description = none ∧ d.description = none))
    ∧ ((applySet (buildUpdateDoc q now) dm).description = none ↔
        (q.description = none ∧ dm.description = none)) := by
  have hmemupd : st.update tid p now =
      .ok (⟨dictSet st._items tid (InMemoryTasksStore.memApplyUpdate p now d)⟩,
        serialize_task (InMemoryTasksStore.memApplyUpdate p now d)) := by
    simp [InMemoryTasksStore.update, hmem]
  have hfind' := find?_setFirst ms.col tid (applySet (buildUpdateDoc p now))
    (fun x => applySet_id _ x) dm hmongo
  have hmongoupd : ms.update tid p now =
      .ok (⟨setFirst (fun x => x.id == tid) (applySet (buildUpdateDoc p now)) ms.col⟩,
        serialize_task (applySet (buildUpdateDoc p now) dm)) := by
    simp [MongoTasksStore.update, hmongo, hfind']
  refine ⟨?_, ?_, ?_, ?_⟩
  · rw [hmemupd]
    simp [Except.map, serialize_task, memApplyUpdate_eq_applySet, applySet,
      buildUpdateDoc, hp]
  · rw [hmongoupd]
    simp [Except.map, serialize_task, applySet, buildUpdateDoc, hp]
  · rw [memApplyUpdate_eq_applySet]
    cases hq : q.description <;> simp [applySet, buildUpdateDoc, hq]
  · cases hq : q.description <;> simp [applySet, buildUpdateDoc, hq]

/-- Witness for C10: a title-only patch on the stored doc with id 0 (whose
description is `"Hello"`) keeps the description on both backends, and the
completed-only patch cannot produce a null description from it. -/
theorem update_description_absorbing_null_witness :
    patchTitleOnly.description = none
    ∧ (sampleMem.update 0 patchTitleOnly 9).map (fun r => r.2.description) =
        .ok docA.description
    ∧ (sampleMongo.update 0 patchTitleOnly 9).map (fun r => r.2.description) =
        .ok docA.description
    ∧ ((InMemoryTasksStore.memApplyUpdate samplePatch 9 docA).description = none ↔
        (samplePatch.description = none ∧ docA.description = none)) :=
  have h := update_description_absorbing_null sampleMem sampleMongo 0
    patchTitleOnly samplePatch 9 docA docA (by decide) (by decide) (by decide)
  ⟨by decide, h.1, h.2.1, h.2.2.1⟩

/-- C2 (evaluation of the code at the claim's scenario): when a durable
store is configured (`MONGODB_URI` supplied) but the startup probe fails,
`init_mongo` calls `disable()`, which drops the client and db handle;
`health_v1` then computes `mongodb_configured` from `get_mongo_db() is
not None` and reports `false` — not `true` as the claim and the
`HealthOut` field description ("Whether MONGODB_URI is configured")
state — and performs no fresh probe (`mongodb_ok` is `false` even when an
on-demand probe would now succeed, so it is not independent of the
committed backend choice). -/
theorem health_after_unreachable_startup_eval :
    init_mongo (some "mongodb0") PingOutcome.connError =
      (⟨none, none⟩ : MongoClientManager)
    ∧ health_v1 (init_mongo (some "mongodb0") PingOutcome.connError)
        PingOutcome.success =
      (⟨"ok", false, false⟩ : HealthOut) :=
  ⟨rfl, rfl⟩
